import Mathlib

/-!
Verification of the template-boundary extraction, field extraction, filename
sanitization and asset filtering logic of process_images.py
(NowhereArchive/NowhereSplash).

Strings are modelled as List Char.  The while-loop scanners of the source are
embedded as fuel-indexed structural recursions; the wrapper functions supply
fuel bounding the number of loop iterations (each iteration advances the index
by at least one), so the fuel-exhaustion branch is unreachable and the
embedding computes exactly what the Python loop computes.
-/

set_option maxRecDepth 8000

/-- The character with code 123, an opening curly brace. -/
def lb : Char := Char.ofNat 123

/-- The character with code 125, a closing curly brace. -/
def rb : Char := Char.ofNat 125

/-- The two-character opening template marker (two opening braces). -/
def openT : List Char := [lb, lb]

/-- The two-character closing template marker (two closing braces). -/
def closeT : List Char := [rb, rb]

/-- Whitespace as matched by the regex class backslash-s of the source's
patterns, restricted to its ASCII range (space, tab, newline, carriage
return, vertical tab, form feed); the inputs of this development contain no
non-ASCII whitespace. -/
def isPyWs (c : Char) : Bool :=
  c == ' ' || c == '\t' || c == '\n' || c == '\r' ||
  c == Char.ofNat 11 || c == Char.ofNat 12

/-- pat is a leading segment of s (models Python startswith and anchored
literal regex matching). -/
def startsWithL (pat s : List Char) : Bool :=
  s.take pat.length == pat

/-- pat occurs contiguously somewhere in s (models the Python expression
pat in s). -/
def hasSub (pat : List Char) : List Char → Bool
  | [] => startsWithL pat []
  | c :: rest => startsWithL pat (c :: rest) || hasSub pat rest

/-- pat is a trailing segment of s (models Python endswith). -/
def endsWithL (pat s : List Char) : Bool :=
  startsWithL pat.reverse s.reverse

/-- The literal suffix used throughout the source, the four characters of
the png extension including the leading dot. -/
def pngSuffix : List Char := ['.', 'p', 'n', 'g']

/-- Matches the regex fragment backslash-s-star followed by the literal name,
anchored at the head of s: some run of whitespace characters may be skipped
before the name (process_images.py line 41, pattern open-braces ws-star
template-name). -/
def wsThenName (name : List Char) : List Char → Bool
  | [] => startsWithL name []
  | c :: rest => startsWithL name (c :: rest) || (isPyWs c && wsThenName name rest)

/-- True when the opening-marker regex of process_images.py line 41 matches at
index i of w: two opening braces, optional whitespace, then the template
name. -/
def isTmplStartAt (w name : List Char) (i : Nat) : Bool :=
  startsWithL openT (w.drop i) && wsThenName name ((w.drop i).drop 2)

/-- Index of the leftmost match of the opening-marker regex
(re.search returns the leftmost match start). -/
def findStart (w name : List Char) : Option Nat :=
  (List.range w.length).find? (fun i => isTmplStartAt w name i)

/-- Result of the template scan: the source's get_template_field returns None
with distinct diagnostics for a missing opening marker (line 43) and for
running off the end of the input with unbalanced braces (line 81); a
successful scan yields the accumulated template text. -/
inductive ExtractResult where
  | notFound : ExtractResult
  | unbalanced : ExtractResult
  | ok : List Char → ExtractResult
deriving DecidableEq

/-- The brace-counting while loop of process_images.py lines 55-82, embedded
with explicit fuel.  State: index i, brace_balance bal, output buffer acc,
in_comment flag inC.  The first branch is the source's line 56 comparison of
a four-character slice with the EMPTY string literal (the comment-marker
literal is absent in the source); it sets in_comment to False and advances by
3, exactly as lines 57-59 do.  No branch ever sets inC to true. -/
def scanLoopAux (w : List Char) : Nat → Nat → Int → List Char → Bool → ExtractResult
  | 0, _, _, _, _ => ExtractResult.unbalanced
  | fuel + 1, i, bal, acc, inC =>
    if h : i < w.length then
      if (w.drop i).take 4 = ([] : List Char) then
        scanLoopAux w fuel (i + 3) bal acc false
      else if inC = false ∧ (w.drop i).take 2 = openT then
        scanLoopAux w fuel (i + 2) (bal + 1) (acc ++ openT) inC
      else if inC = false ∧ (w.drop i).take 2 = closeT then
        if bal - 1 = 0 then ExtractResult.ok (acc ++ closeT)
        else scanLoopAux w fuel (i + 2) (bal - 1) (acc ++ closeT) inC
      else
        scanLoopAux w fuel (i + 1) bal (acc ++ [w.get ⟨i, h⟩]) inC
    else ExtractResult.unbalanced

/-- The while loop with sufficient fuel: each iteration advances i by at
least 1, so w.length + 1 iterations always reach either termination or the
end of the input. -/
def scanLoop (w : List Char) (i : Nat) (bal : Int) (acc : List Char) (inC : Bool) :
    ExtractResult :=
  scanLoopAux w (w.length + 1) i bal acc inC

/-- TemplateExtractor: find the opening marker of the named template, then run
the brace-counting scan from it (process_images.py lines 41-82; the source
hardcodes the template name in the regex, modelled here as the name
parameter). -/
def extractTemplate (w name : List Char) : ExtractResult :=
  match findStart w name with
  | none => ExtractResult.notFound
  | some s => scanLoop w s 0 [] false

/-- Reference balanced scan, modelled from the spec's section 4.1 algorithm
without its comment clause (the comment clause is settled by claim C1): from
index i with depth bal, two opening braces increment the depth, two closing
braces decrement it and end the scan when the depth reaches zero, any other
character is skipped; the result is the index just past the closing marker,
or none when the input ends first. -/
def scanEndAux (w : List Char) : Nat → Nat → Int → Option Nat
  | 0, _, _ => none
  | fuel + 1, i, bal =>
    if i < w.length then
      if (w.drop i).take 2 = openT then
        scanEndAux w fuel (i + 2) (bal + 1)
      else if (w.drop i).take 2 = closeT then
        if bal - 1 = 0 then some (i + 2)
        else scanEndAux w fuel (i + 2) (bal - 1)
      else scanEndAux w fuel (i + 1) bal
    else none

/-- Reference balanced scan with sufficient fuel. -/
def scanEnd (w : List Char) (i : Nat) (bal : Int) : Option Nat :=
  scanEndAux w (w.length + 1) i bal

/-- The sequence of (index, brace_balance) states visited by the while loop of
process_images.py lines 55-82, in order, starting with the state before the
first iteration and ending with the state at which the loop stops (balance
zero after a closing marker, or index at end of input). -/
def scanStatesAux (w : List Char) : Nat → Nat → Int → List (Nat × Int)
  | 0, i, bal => [(i, bal)]
  | fuel + 1, i, bal =>
    if i < w.length then
      (i, bal) ::
        (if (w.drop i).take 4 = ([] : List Char) then
          scanStatesAux w fuel (i + 3) bal
        else if (w.drop i).take 2 = openT then
          scanStatesAux w fuel (i + 2) (bal + 1)
        else if (w.drop i).take 2 = closeT then
          if bal - 1 = 0 then [(i + 2, (0 : Int))]
          else scanStatesAux w fuel (i + 2) (bal - 1)
        else scanStatesAux w fuel (i + 1) bal)
    else [(i, bal)]

/-- The state trace with sufficient fuel. -/
def scanStates (w : List Char) (i : Nat) (bal : Int) : List (Nat × Int) :=
  scanStatesAux w (w.length + 1) i bal

/-- Template name hardcoded at process_images.py line 41. -/
def tmplName : List Char := ['禁', '闭', '者', '图', '鉴']

/-- Field name hardcoded at process_images.py line 155. -/
def fldName : List Char := ['英', '文', '名']

/-- Claim C3's example wikitext, an instance of template T with a nested
template in a parameter value. -/
def exC3 : List Char :=
  [lb, lb, 'T', '|', 'a', '=', lb, lb, 'b', rb, rb, '|', 'c', '=', 'd', rb, rb]

/-- Claim C5's example wikitext, an unterminated instance of template T. -/
def exC5 : List Char :=
  [lb, lb, 'T', '|', 'u', 'n', 't', 'e', 'r', 'm', 'i', 'n', 'a', 't', 'e', 'd']

/-- Claim C1's failing input: a template T whose body contains a wiki comment
enclosing a closing brace pair, followed by more body text and the real
closing marker. -/
def exC1 : List Char :=
  [lb, lb, 'T', '|', '<', '!', '-', '-', rb, rb, '-', '-', '>', 'x', rb, rb]

/-- What the source actually returns on exC1: the scan stops at the closing
brace pair inside the comment. -/
def exC1res : List Char :=
  [lb, lb, 'T', '|', '<', '!', '-', '-', rb, rb]

/-- The single-character template name T used by the spec's examples. -/
def tName : List Char := ['T']

example : findStart exC3 tName = some 0 := by decide
example : scanEnd exC3 0 0 = some 17 := by decide
example : extractTemplate exC3 tName = ExtractResult.ok exC3 := by decide
example : extractTemplate exC5 tName = ExtractResult.unbalanced := by decide
example : extractTemplate exC1 tName = ExtractResult.ok exC1res := by decide

/-- The character class of the field-value group in the regex at
process_images.py line 96: any character other than a vertical bar, newline,
carriage return or closing brace. -/
def inFieldClass (c : Char) : Bool :=
  !(c == '|' || c == '\n' || c == '\r' || c == rb)

/-- Greedy one-or-more repetition of the value class at the end of the
pattern: the maximal nonempty run of class characters at the head of s,
none when the head is not a class character. -/
def matchClassPlus (s : List Char) : Option (List Char) :=
  if s.takeWhile inFieldClass = [] then none else some (s.takeWhile inFieldClass)

/-- Greedy backtracking ws-star: try consuming as much leading whitespace as
possible before running the continuation, falling back to shorter runs on
failure — exactly the behaviour of the regex fragment backslash-s-star
followed by the rest of the pattern. -/
def greedyWs (cont : List Char → Option (List Char)) : List Char → Option (List Char)
  | [] => cont []
  | c :: rest =>
    if isPyWs c then
      match greedyWs cont rest with
      | some v => some v
      | none => cont (c :: rest)
    else cont (c :: rest)

/-- Continuation after the second ws-star: an equals sign, then ws-star, then
the value group. -/
def contEq : List Char → Option (List Char)
  | [] => none
  | c :: s3 => if c = '=' then greedyWs matchClassPlus s3 else none

/-- Continuation after the first ws-star: the literal field name (re.escape
makes the source's field name a literal), then ws-star, equals, ws-star,
value group. -/
def contName (name s1 : List Char) : Option (List Char) :=
  if startsWithL name s1 = true then greedyWs contEq (s1.drop name.length)
  else none

/-- Match of the regex at process_images.py line 96 anchored just after its
delimiter: ws-star, name, ws-star, equals, ws-star, value group; returns the
raw (untrimmed) group. -/
def matchAfterDelim (name s : List Char) : Option (List Char) :=
  greedyWs (contName name) s

/-- One attempt of the full pattern at the head of s: the delimiter
alternation (a vertical bar, or two opening braces) followed by the rest of
the pattern. -/
def attempt1 (name : List Char) : List Char → Option (List Char)
  | [] => none
  | c :: rest =>
    if c = '|' then matchAfterDelim name rest
    else
      match rest with
      | [] => none
      | d :: rest2 =>
        if c = lb ∧ d = lb then matchAfterDelim name rest2 else none

/-- re.search over the template text: try the pattern at every start position
from left to right and return the first group found. -/
def fieldSearch (name : List Char) : List Char → Option (List Char)
  | [] => none
  | c :: rest =>
    match attempt1 name (c :: rest) with
    | some v => some v
    | none => fieldSearch name rest

/-- Python str.strip(): remove leading and trailing whitespace. -/
def pyStrip (s : List Char) : List Char :=
  ((s.dropWhile isPyWs).reverse.dropWhile isPyWs).reverse

/-- FieldExtractor: the regex search of process_images.py line 96 followed by
the strip of line 98. -/
def extractField (t name : List Char) : Option (List Char) :=
  (fieldSearch name t).map pyStrip

/-- Every character of l is whitespace. -/
def AllWs (l : List Char) : Prop := ∀ c ∈ l, isPyWs c = true

/-- Every character of l is in the value class (no bar, newline, carriage
return or closing brace). -/
def AllClass (l : List Char) : Prop := ∀ c ∈ l, inFieldClass c = true

/-- Declarative existence of a match of the post-delimiter part of the
pattern at the head of s: whitespace, the field name, whitespace, an equals
sign, whitespace, then a nonempty run of value-class characters.  Stated as a
plain decomposition, independent of the matching engine's search order. -/
def TailMatch (name s : List Char) : Prop :=
  ∃ a b c v r, s = a ++ name ++ b ++ '=' :: (c ++ v ++ r) ∧
    AllWs a ∧ AllWs b ∧ AllWs c ∧ v ≠ [] ∧ AllClass v

/-- Declarative existence of a match of the whole field pattern at the head
of s: a delimiter (bar, or two opening braces) followed by a TailMatch. -/
def SuffMatch (name s : List Char) : Prop :=
  (∃ s1, s = '|' :: s1 ∧ TailMatch name s1) ∨
  (∃ s1, s = lb :: lb :: s1 ∧ TailMatch name s1)

/-- Claim C6's example template text. -/
def exC6 : List Char :=
  [lb, lb, 'T', '|', 'n', 'a', 'm', 'e', ' ', '=', ' ',
   'A', 'l', 'p', 'h', 'a', ' ', 'B', 'e', 't', 'a', ' ', '|', 'x', '=', '1', rb, rb]

/-- The value of field name in exC6, trimmed. -/
def valC6 : List Char := ['A', 'l', 'p', 'h', 'a', ' ', 'B', 'e', 't', 'a']

example : fieldSearch ['n', 'a', 'm', 'e'] exC6 = some (valC6 ++ [' ']) := by decide
example : extractField exC6 ['n', 'a', 'm', 'e'] = some valC6 := by decide

/-- Claim C7 and C10's wikitext: the hardcoded template with a field whose
value consists only of whitespace before the line break. -/
def wC7 : List Char :=
  [lb, lb, '禁', '闭', '者', '图', '鉴', '|', '英', '文', '名', ' ', '=', ' ', '\n', rb, rb]

example : extractTemplate wC7 tmplName = ExtractResult.ok wC7 := by decide
example : extractField wC7 fldName = some [] := by decide
example : fieldSearch fldName wC7 = some [' '] := by decide

/-- Python str.replace for a nonempty pattern, with fuel: scan left to right,
replacing non-overlapping occurrences of old by new (process_images.py lines
147 and 166 use this method; both call sites pass a nonempty old). -/
def replaceAllAux (old new : List Char) : Nat → List Char → List Char
  | _, [] => []
  | fuel + 1, c :: rest =>
    if old ≠ [] ∧ startsWithL old (c :: rest) = true then
      new ++ replaceAllAux old new fuel ((c :: rest).drop old.length)
    else
      c :: replaceAllAux old new fuel rest
  | 0, s => s

/-- Python str.replace with sufficient fuel (each step consumes at least one
character of s). -/
def replaceAll (old new s : List Char) : List Char :=
  replaceAllAux old new s.length s

/-- The wiki namespace token hardcoded at process_images.py line 150. -/
def nsTok : List Char := ['禁', '闭', '者', ':']

/-- Candidate page title for an asset (process_images.py lines 147-150):
original_name.replace(keyword + ".png", "") prefixed with the namespace
token. -/
def pageTitle (assetName keyword : List Char) : List Char :=
  nsTok ++ replaceAll (keyword ++ pngSuffix) [] assetName

/-- The character class of the substitution regex at process_images.py line
170: whitespace or any of backslash, slash, colon, double quote, asterisk,
question mark, angle brackets, vertical bar. -/
def isSanChar (c : Char) : Bool :=
  isPyWs c || c == '\\' || c == '/' || c == ':' || c == '"' ||
  c == '*' || c == '?' || c == '<' || c == '>' || c == '|'

/-- re.sub of line 170 with fuel: each maximal run of characters of the class
is replaced by a single underscore. -/
def collapseRunsAux : Nat → List Char → List Char
  | _, [] => []
  | fuel + 1, c :: rest =>
    if isSanChar c then '_' :: collapseRunsAux fuel (rest.dropWhile isSanChar)
    else c :: collapseRunsAux fuel rest
  | 0, s => s

/-- re.sub of line 170 with sufficient fuel. -/
def collapseRuns (s : List Char) : List Char :=
  collapseRunsAux s.length s

/-- Sanitizer (process_images.py lines 161-170): lowercase, remove every
period, then collapse each run of whitespace or reserved characters to a
single underscore. -/
def sanitize (s : List Char) : List Char :=
  collapseRuns (replaceAll ['.'] [] (s.map Char.toLower))

/-- The pure core of get_template_field once the wikitext (or the API
failure) is known: empty or missing wikitext fails, then template extraction,
then field extraction (process_images.py lines 23-44 and 94-103). -/
def getTemplateField (wk : Option (List Char)) (fieldName : List Char) :
    Option (List Char) :=
  match wk with
  | none => none
  | some w =>
    if w = [] then none
    else
      match extractTemplate w tmplName with
      | ExtractResult.ok t => extractField t fieldName
      | _ => none

/-- NameResolver (process_images.py lines 144-173): derive the page title,
look the page up, and decide the output filename.  The source's test at line
157 is Python falsiness, so both a missing field and a field whose stripped
value is the empty string fall back to the original asset name; otherwise the
sanitized value with the png suffix is used. -/
def resolveName (pageLookup : List Char → Option (List Char))
    (assetName keyword fieldName : List Char) : List Char :=
  match getTemplateField (pageLookup (pageTitle assetName keyword)) fieldName with
  | none => assetName
  | some v => if v = [] then assetName else sanitize v ++ pngSuffix

/-- An asset descriptor as reported by the remote catalog. -/
structure AssetDescriptor where
  name : List Char
  url : List Char
deriving DecidableEq

/-- The keyword/suffix filter applied while draining the listing
(process_images.py lines 122-124): keep records whose name contains the
keyword and ends with the png suffix. -/
def searchFilter (assets : List AssetDescriptor) (keyword : List Char) :
    List AssetDescriptor :=
  assets.filter (fun a => hasSub keyword a.name && endsWithL pngSuffix a.name)

/-- The first exclusion substring at process_images.py line 139. -/
def excl1 : List Char := ['升', '阶', '装', '束']

/-- The exclusion filter at process_images.py line 139: keep records whose
name contains neither the first exclusion substring nor the SECOND, which in
the source is the empty string — and the empty string is contained in every
string. -/
def exclusionFilter (assets : List AssetDescriptor) : List AssetDescriptor :=
  assets.filter (fun a => !(hasSub excl1 a.name) && !(hasSub ([] : List Char) a.name))

/-- AssetCatalog: the composition of the two filters the source applies to
the listing before processing. -/
def filterAssets (assets : List AssetDescriptor) (keyword : List Char) :
    List AssetDescriptor :=
  exclusionFilter (searchFilter assets keyword)

/-- The keyword of the spec's examples. -/
def kwC : List Char := ['证', '件', '照']

/-- First asset name of claim C2's example. -/
def nameA1 : List Char := ['x', '_', '证', '件', '照', '.', 'p', 'n', 'g']

/-- Second asset name of claim C2's example. -/
def nameA2 : List Char :=
  ['x', '_', '证', '件', '照', '_', '升', '阶', '装', '束', '.', 'p', 'n', 'g']

/-- A dummy URL for example assets. -/
def urlX : List Char := ['u']

example : filterAssets [⟨nameA1, urlX⟩, ⟨nameA2, urlX⟩] kwC = [] := by decide
example : searchFilter [⟨nameA1, urlX⟩, ⟨nameA2, urlX⟩] kwC =
    [⟨nameA1, urlX⟩, ⟨nameA2, urlX⟩] := by decide

/-- Claim C7 and NameResolver example wikitext whose field value is John
Doe. -/
def wJohn : List Char :=
  [lb, lb, '禁', '闭', '者', '图', '鉴', '|', '英', '文', '名', ' ', '=', ' ',
   'J', 'o', 'h', 'n', ' ', 'D', 'o', 'e', rb, rb]

/-- The asset name of the spec's end-to-end example. -/
def nameA3 : List Char := ['A', '_', '证', '件', '照', '.', 'p', 'n', 'g']

example : getTemplateField (some wJohn) fldName =
    some ['J', 'o', 'h', 'n', ' ', 'D', 'o', 'e'] := by decide
example : resolveName (fun _ => some wJohn) nameA3 kwC fldName =
    ['j', 'o', 'h', 'n', '_', 'd', 'o', 'e', '.', 'p', 'n', 'g'] := by decide
example : resolveName (fun _ => none) nameA3 kwC fldName = nameA3 := by decide
example : resolveName (fun _ => some wC7) nameA3 kwC fldName = nameA3 := by decide
example : sanitize ['A', 'l', 'p', 'h', 'a', ' ', 'B', 'e', 't', 'a', '.',
    'G', 'a', 'm', 'm', 'a'] =
    ['a', 'l', 'p', 'h', 'a', '_', 'b', 'e', 't', 'a', 'g', 'a', 'm', 'm', 'a'] := by
  decide
example : sanitize ['.'] = [] := by decide
example : pageTitle nameA3 kwC = nsTok ++ ['A', '_'] := by decide

lemma take4_ne_nil {w : List Char} {i : Nat} (h : i < w.length) :
    (w.drop i).take 4 ≠ ([] : List Char) := by
  have hd : w.drop i ≠ [] := by
    rw [ne_eq, List.drop_eq_nil_iff]; omega
  cases hne : w.drop i with
  | nil => exact absurd hne hd
  | cons c t => simp

lemma findStart_facts {w name : List Char} {s : Nat} (h : findStart w name = some s) :
    (w.drop s).take 2 = openT ∧ s + 2 ≤ w.length := by
  have hp := List.find?_some h
  unfold isTmplStartAt at hp
  rw [Bool.and_eq_true] at hp
  have h1 : startsWithL openT (w.drop s) = true := hp.1
  unfold startsWithL at h1
  rw [beq_iff_eq] at h1
  have hlen : openT.length = 2 := rfl
  rw [hlen] at h1
  refine ⟨h1, ?_⟩
  have hlt : ((w.drop s).take 2).length = 2 := by rw [h1]; rfl
  rw [List.length_take, List.length_drop] at hlt
  omega

lemma scanEndAux_bound {w : List Char} :
    ∀ fuel i bal e, scanEndAux w fuel i bal = some e → i + 2 ≤ e ∧ e ≤ w.length := by
  intro fuel
  induction fuel with
  | zero => intro i bal e h; simp [scanEndAux] at h
  | succ n ih =>
    intro i bal e h
    simp only [scanEndAux] at h
    split at h
    · rename_i hi
      split at h
      · have := ih _ _ _ h; omega
      · split at h
        · rename_i hno hcl
          split at h
          · injection h with h2
            have hlt : ((w.drop i).take 2).length = 2 := by rw [hcl]; rfl
            rw [List.length_take, List.length_drop] at hlt
            omega
          · have := ih _ _ _ h; omega
        · have := ih _ _ _ h; omega
    · exact absurd h (by simp)

lemma scanEndAux_close {w : List Char} :
    ∀ fuel i bal e, scanEndAux w fuel i bal = some e →
      (w.drop (e - 2)).take 2 = closeT := by
  intro fuel
  induction fuel with
  | zero => intro i bal e h; simp [scanEndAux] at h
  | succ n ih =>
    intro i bal e h
    simp only [scanEndAux] at h
    split at h
    · split at h
      · exact ih _ _ _ h
      · split at h
        · rename_i hno hcl
          split at h
          · injection h with h2
            subst h2
            simpa using hcl
          · exact ih _ _ _ h
        · exact ih _ _ _ h
    · exact absurd h (by simp)

lemma scanLoopAux_ok {w : List Char} :
    ∀ fuel i bal acc e, scanEndAux w fuel i bal = some e →
      scanLoopAux w fuel i bal acc false =
        ExtractResult.ok (acc ++ (w.drop i).take (e - i)) := by
  intro fuel
  induction fuel with
  | zero => intro i bal acc e h; simp [scanEndAux] at h
  | succ n ih =>
    intro i bal acc e h
    have hbnd := scanEndAux_bound (n + 1) i bal e h
    simp only [scanEndAux] at h
    split at h
    · rename_i hi
      have h4 := take4_ne_nil hi
      split at h
      · rename_i ho
        rw [scanLoopAux]
        rw [dif_pos hi, if_neg h4, if_pos (by exact ⟨rfl, ho⟩)]
        rw [ih _ _ _ _ h]
        have hb2 := scanEndAux_bound _ _ _ _ h
        have hsplit : (w.drop i).take (e - i) =
            openT ++ (w.drop (i + 2)).take (e - (i + 2)) := by
          rw [show e - i = 2 + (e - (i + 2)) by omega, List.take_add, ho,
            List.drop_drop]
        rw [hsplit, List.append_assoc]
      · rename_i hno
        split at h
        · rename_i hcl
          rw [scanLoopAux]
          rw [dif_pos hi, if_neg h4,
            if_neg (by intro hco; exact hno hco.2),
            if_pos (by exact ⟨rfl, hcl⟩)]
          split at h
          · rename_i hb0
            injection h with h2
            subst h2
            rw [if_pos hb0]
            rw [show i + 2 - i = 2 by omega, hcl]
          · rename_i hb0
            rw [if_neg hb0]
            rw [ih _ _ _ _ h]
            have hb2 := scanEndAux_bound _ _ _ _ h
            have hsplit : (w.drop i).take (e - i) =
                closeT ++ (w.drop (i + 2)).take (e - (i + 2)) := by
              rw [show e - i = 2 + (e - (i + 2)) by omega, List.take_add, hcl,
                List.drop_drop]
            rw [hsplit, List.append_assoc]
        · rename_i hcl
          rw [scanLoopAux]
          rw [dif_pos hi, if_neg h4,
            if_neg (by intro hco; exact hno hco.2),
            if_neg (by intro hco; exact hcl hco.2)]
          rw [ih _ _ _ _ h]
          have hb2 := scanEndAux_bound _ _ _ _ h
          have hget : List.take 1 (List.drop i w) = [w.get ⟨i, hi⟩] := by
            rw [List.drop_eq_getElem_cons hi]
            rfl
          have hsplit : (w.drop i).take (e - i) =
              [w.get ⟨i, hi⟩] ++ (w.drop (i + 1)).take (e - (i + 1)) := by
            rw [show e - i = 1 + (e - (i + 1)) by omega, List.take_add,
              List.drop_drop, hget]
          rw [hsplit, List.append_assoc]
    · exact absurd h (by simp)

lemma scanLoopAux_fail {w : List Char} :
    ∀ fuel i bal acc, w.length ≤ i + fuel → scanEndAux w fuel i bal = none →
      scanLoopAux w fuel i bal acc false = ExtractResult.unbalanced := by
  intro fuel
  induction fuel with
  | zero => intro i bal acc hf h; simp [scanLoopAux]
  | succ n ih =>
    intro i bal acc hf h
    simp only [scanEndAux] at h
    split at h
    · rename_i hi
      have h4 := take4_ne_nil hi
      split at h
      · rename_i ho
        rw [scanLoopAux, dif_pos hi, if_neg h4, if_pos (by exact ⟨rfl, ho⟩)]
        exact ih _ _ _ (by omega) h
      · rename_i hno
        split at h
        · rename_i hcl
          split at h
          · exact absurd h (by simp)
          · rename_i hb0
            rw [scanLoopAux, dif_pos hi, if_neg h4,
              if_neg (by intro hco; exact hno hco.2),
              if_pos (by exact ⟨rfl, hcl⟩), if_neg hb0]
            exact ih _ _ _ (by omega) h
        · rename_i hcl
          rw [scanLoopAux, dif_pos hi, if_neg h4,
            if_neg (by intro hco; exact hno hco.2),
            if_neg (by intro hco; exact hcl hco.2)]
          exact ih _ _ _ (by omega) h
    · rename_i hi
      rw [scanLoopAux, dif_neg hi]

lemma scanStatesAux_ok {w : List Char} :
    ∀ fuel i bal e, 1 ≤ bal → scanEndAux w fuel i bal = some e →
      ∃ mid, scanStatesAux w fuel i bal = mid ++ [(e, (0 : Int))] ∧
        ∀ pb ∈ mid, 1 ≤ pb.2 := by
  intro fuel
  induction fuel with
  | zero => intro i bal e hb h; simp [scanEndAux] at h
  | succ n ih =>
    intro i bal e hb h
    simp only [scanEndAux] at h
    split at h
    · rename_i hi
      have h4 := take4_ne_nil hi
      split at h
      · rename_i ho
        obtain ⟨mid, hm, hmem⟩ := ih _ _ _ (by omega) h
        refine ⟨(i, bal) :: mid, ?_, ?_⟩
        · rw [scanStatesAux, if_pos hi, if_neg h4, if_pos ho, hm]
          simp
        · intro pb hpb
          rcases List.mem_cons.mp hpb with h1 | h1
          · subst h1; exact hb
          · exact hmem pb h1
      · rename_i hno
        split at h
        · rename_i hcl
          split at h
          · rename_i hb0
            injection h with h2
            subst h2
            refine ⟨[(i, bal)], ?_, ?_⟩
            · rw [scanStatesAux, if_pos hi, if_neg h4, if_neg hno, if_pos hcl,
                if_pos hb0]
              simp
            · intro pb hpb
              rcases List.mem_singleton.mp hpb with h1
              subst h1; exact hb
          · rename_i hb0
            obtain ⟨mid, hm, hmem⟩ := ih _ _ _ (by omega) h
            refine ⟨(i, bal) :: mid, ?_, ?_⟩
            · rw [scanStatesAux, if_pos hi, if_neg h4, if_neg hno, if_pos hcl,
                if_neg hb0, hm]
              simp
            · intro pb hpb
              rcases List.mem_cons.mp hpb with h1 | h1
              · subst h1; exact hb
              · exact hmem pb h1
        · rename_i hcl
          obtain ⟨mid, hm, hmem⟩ := ih _ _ _ hb h
          refine ⟨(i, bal) :: mid, ?_, ?_⟩
          · rw [scanStatesAux, if_pos hi, if_neg h4, if_neg hno, if_neg hcl, hm]
            simp
          · intro pb hpb
            rcases List.mem_cons.mp hpb with h1 | h1
            · subst h1; exact hb
            · exact hmem pb h1
    · exact absurd h (by simp)

lemma scanStatesAux_fail {w : List Char} :
    ∀ fuel i bal, w.length ≤ i + fuel → i ≤ w.length → 1 ≤ bal →
      scanEndAux w fuel i bal = none →
      ∃ mid b, scanStatesAux w fuel i bal = mid ++ [(w.length, b)] ∧ 1 ≤ b ∧
        ∀ pb ∈ mid, 1 ≤ pb.2 := by
  intro fuel
  induction fuel with
  | zero =>
    intro i bal hf hle hb h
    have : i = w.length := by omega
    subst this
    exact ⟨[], bal, by simp [scanStatesAux], hb, by simp⟩
  | succ n ih =>
    intro i bal hf hle hb h
    simp only [scanEndAux] at h
    split at h
    · rename_i hi
      have h4 := take4_ne_nil hi
      split at h
      · rename_i ho
        have hlo : ((w.drop i).take 2).length = 2 := by rw [ho]; rfl
        rw [List.length_take, List.length_drop] at hlo
        obtain ⟨mid, b, hm, hb1, hmem⟩ := ih _ _ (by omega) (by omega) (by omega) h
        refine ⟨(i, bal) :: mid, b, ?_, hb1, ?_⟩
        · rw [scanStatesAux, if_pos hi, if_neg h4, if_pos ho, hm]
          simp
        · intro pb hpb
          rcases List.mem_cons.mp hpb with h1 | h1
          · subst h1; exact hb
          · exact hmem pb h1
      · rename_i hno
        split at h
        · rename_i hcl
          have hlo : ((w.drop i).take 2).length = 2 := by rw [hcl]; rfl
          rw [List.length_take, List.length_drop] at hlo
          split at h
          · exact absurd h (by simp)
          · rename_i hb0
            obtain ⟨mid, b, hm, hb1, hmem⟩ :=
              ih _ _ (by omega) (by omega) (by omega) h
            refine ⟨(i, bal) :: mid, b, ?_, hb1, ?_⟩
            · rw [scanStatesAux, if_pos hi, if_neg h4, if_neg hno, if_pos hcl,
                if_neg hb0, hm]
              simp
            · intro pb hpb
              rcases List.mem_cons.mp hpb with h1 | h1
              · subst h1; exact hb
              · exact hmem pb h1
        · rename_i hcl
          obtain ⟨mid, b, hm, hb1, hmem⟩ :=
            ih _ _ (by omega) (by omega) hb h
          refine ⟨(i, bal) :: mid, b, ?_, hb1, ?_⟩
          · rw [scanStatesAux, if_pos hi, if_neg h4, if_neg hno, if_neg hcl, hm]
            simp
          · intro pb hpb
            rcases List.mem_cons.mp hpb with h1 | h1
            · subst h1; exact hb
            · exact hmem pb h1
    · rename_i hi
      have : i = w.length := by omega
      subst this
      exact ⟨[], bal, by rw [scanStatesAux, if_neg hi]; simp, hb, by simp⟩

/-- C1 (code bug): the source never enters comment mode — the comparison at
process_images.py line 56 tests a four-character slice against the empty
string and no branch sets in_comment to True — so a closing brace pair inside
a comment span DOES decrement the depth counter and terminates the scan.  On
the failing input exC1 (template T whose body holds a comment containing a
closing brace pair) the scan stops inside the comment and returns the
truncated text exC1res instead of the whole template. -/
theorem c1_comment_braces_counted :
    extractTemplate exC1 tName = ExtractResult.ok exC1res ∧ exC1res ≠ exC1 :=
  ⟨by decide, by decide⟩

/-- C3: whenever the opening-marker search succeeds at index s and the
balanced reference scan from s ends at index e, extractTemplate returns
exactly the substring of the wikitext from s to e — the first balanced
instance of the named template, with its outer opening and closing
brace pairs — and on the spec's example the whole string is returned. -/
theorem c3_extract_first_balanced :
    (∀ w name s e, findStart w name = some s → scanEnd w s 0 = some e →
      extractTemplate w name = ExtractResult.ok ((w.drop s).take (e - s)) ∧
      ((w.drop s).take (e - s)).take 2 = openT ∧
      ((w.drop s).take (e - s)).drop (((w.drop s).take (e - s)).length - 2) =
        closeT) ∧
    extractTemplate exC3 tName = ExtractResult.ok exC3 := by
  constructor
  · intro w name s e hf he
    obtain ⟨ho, hs2⟩ := findStart_facts hf
    unfold scanEnd at he
    have hb := scanEndAux_bound _ _ _ _ he
    refine ⟨?_, ?_, ?_⟩
    · simp only [extractTemplate, hf, scanLoop]
      rw [scanLoopAux_ok _ _ _ _ _ he]
      simp
    · rw [List.take_take, show (2 : Nat) ⊓ (e - s) = 2 by omega]
      exact ho
    · have hcl := scanEndAux_close _ _ _ _ he
      have hlen : ((w.drop s).take (e - s)).length = e - s := by
        rw [List.length_take, List.length_drop]; omega
      rw [hlen, List.drop_take, show e - s - (e - s - 2) = 2 by omega,
        List.drop_drop, show s + (e - s - 2) = e - 2 by omega]
      exact hcl
  · decide

/-- C4: on every successful extraction the state trace of the while loop
starts at the opening-marker index with balance 0, ends with balance 0 again
exactly at the index just past the returned span, keeps balance at least 1 at
every state in between, and the balance is non-negative at every state. -/
theorem c4_depth_trace :
    ∀ w name s t, findStart w name = some s →
      extractTemplate w name = ExtractResult.ok t →
      ∃ mid, scanStates w s 0 =
          ((s, (0 : Int)) :: mid) ++ [(s + t.length, (0 : Int))] ∧
        (∀ pb ∈ mid, 1 ≤ pb.2) ∧ ∀ pb ∈ scanStates w s 0, 0 ≤ pb.2 := by
  intro w name s t hf hok
  obtain ⟨ho, hs2⟩ := findStart_facts hf
  have hslt : s < w.length := by omega
  obtain ⟨e, hse⟩ : ∃ e, scanEndAux w (w.length + 1) s 0 = some e := by
    cases hse : scanEndAux w (w.length + 1) s 0 with
    | some e => exact ⟨e, rfl⟩
    | none =>
      have hfl := scanLoopAux_fail (w.length + 1) s 0 [] (by omega) hse
      simp only [extractTemplate, hf, scanLoop] at hok
      rw [hfl] at hok
      exact absurd hok (by simp)
  have hb := scanEndAux_bound _ _ _ _ hse
  have he1 : extractTemplate w name =
      ExtractResult.ok ((w.drop s).take (e - s)) := by
    simp only [extractTemplate, hf, scanLoop]
    rw [scanLoopAux_ok _ _ _ _ _ hse]
    simp
  rw [he1] at hok
  injection hok with ht
  have hlen : t.length = e - s := by
    rw [← ht, List.length_take, List.length_drop]; omega
  have hstep : scanStates w s 0 =
      (s, (0 : Int)) :: scanStatesAux w w.length (s + 2) 1 := by
    unfold scanStates
    simp only [scanStatesAux]
    rw [if_pos hslt, if_neg (take4_ne_nil hslt), if_pos ho]
    norm_num
  have hestep : scanEndAux w w.length (s + 2) 1 = some e := by
    simp only [scanEndAux] at hse
    rw [if_pos hslt, if_pos ho] at hse
    simpa using hse
  obtain ⟨mid, hm, hmem⟩ :=
    scanStatesAux_ok w.length (s + 2) 1 e (by norm_num) hestep
  refine ⟨mid, ?_, hmem, ?_⟩
  · rw [hstep, hm, show s + t.length = e by omega]
    simp
  · intro pb hpb
    rw [hstep, hm] at hpb
    rcases List.mem_cons.mp hpb with h1 | h1
    · subst h1; simp
    · rcases List.mem_append.mp h1 with h2 | h2
      · have := hmem pb h2; omega
      · rcases List.mem_singleton.mp h2 with h3
        subst h3; simp

/-- C5: with the opening marker found at index s, extraction fails as
unbalanced exactly when the while loop's state trace ends at the end of the
input with the depth counter still positive; and the spec's truncated example
fails that way. -/
theorem c5_unbalanced_iff :
    (∀ w name s, findStart w name = some s →
      (extractTemplate w name = ExtractResult.unbalanced ↔
        ∃ mid b, scanStates w s 0 = mid ++ [(w.length, b)] ∧ 0 < b)) ∧
    extractTemplate exC5 tName = ExtractResult.unbalanced := by
  constructor
  · intro w name s hf
    obtain ⟨ho, hs2⟩ := findStart_facts hf
    have hslt : s < w.length := by omega
    have hstep : scanStates w s 0 =
        (s, (0 : Int)) :: scanStatesAux w w.length (s + 2) 1 := by
      unfold scanStates
      simp only [scanStatesAux]
      rw [if_pos hslt, if_neg (take4_ne_nil hslt), if_pos ho]
      norm_num
    constructor
    · intro hun
      cases hse : scanEndAux w (w.length + 1) s 0 with
      | some e =>
        have he1 : extractTemplate w name =
            ExtractResult.ok ((w.drop s).take (e - s)) := by
          simp only [extractTemplate, hf, scanLoop]
          rw [scanLoopAux_ok _ _ _ _ _ hse]
          simp
        rw [he1] at hun
        exact absurd hun (by simp)
      | none =>
        have hestep : scanEndAux w w.length (s + 2) 1 = none := by
          simp only [scanEndAux] at hse
          rw [if_pos hslt, if_pos ho] at hse
          simpa using hse
        obtain ⟨mid, b, hm, hb1, hmem⟩ :=
          scanStatesAux_fail w.length (s + 2) 1 (by omega) (by omega)
            (by norm_num) hestep
        exact ⟨(s, (0 : Int)) :: mid, b, by rw [hstep, hm]; simp, by omega⟩
    · rintro ⟨mid, b, hm, hb⟩
      cases hse : scanEndAux w (w.length + 1) s 0 with
      | some e =>
        exfalso
        have hestep : scanEndAux w w.length (s + 2) 1 = some e := by
          simp only [scanEndAux] at hse
          rw [if_pos hslt, if_pos ho] at hse
          simpa using hse
        obtain ⟨mid2, hm2, _⟩ :=
          scanStatesAux_ok w.length (s + 2) 1 e (by norm_num) hestep
        have h1 : (scanStates w s 0).getLast? = some (w.length, b) := by
          rw [hm]; exact List.getLast?_concat _
        have h2 : (scanStates w s 0).getLast? = some (e, (0 : Int)) := by
          rw [hstep, hm2, ← List.cons_append]
          exact List.getLast?_concat _
        rw [h1] at h2
        injection h2 with h3
        have hb0 : b = 0 := (Prod.mk.injEq _ _ _ _ ▸ h3).2
        omega
      | none =>
        simp only [extractTemplate, hf, scanLoop]
        exact scanLoopAux_fail _ _ _ _ (by omega) hse
  · decide

/-- Witness for C3 at the spec's example: opening marker at 0, balanced scan
ends at 17, and the extraction returns exactly that span. -/
theorem c3_extract_first_balanced_w :
    findStart exC3 tName = some 0 ∧ scanEnd exC3 0 0 = some 17 ∧
      (extractTemplate exC3 tName =
        ExtractResult.ok ((exC3.drop 0).take (17 - 0)) ∧
      ((exC3.drop 0).take (17 - 0)).take 2 = openT ∧
      ((exC3.drop 0).take (17 - 0)).drop
          (((exC3.drop 0).take (17 - 0)).length - 2) = closeT) :=
  ⟨by decide, by decide,
    c3_extract_first_balanced.1 exC3 tName 0 17 (by decide) (by decide)⟩

/-- Witness for C4 at the spec's example. -/
theorem c4_depth_trace_w :
    findStart exC3 tName = some 0 ∧
      extractTemplate exC3 tName = ExtractResult.ok exC3 ∧
      ∃ mid, scanStates exC3 0 0 =
          ((0, (0 : Int)) :: mid) ++ [(0 + exC3.length, (0 : Int))] ∧
        (∀ pb ∈ mid, 1 ≤ pb.2) ∧ ∀ pb ∈ scanStates exC3 0 0, 0 ≤ pb.2 :=
  ⟨by decide, by decide, c4_depth_trace exC3 tName 0 exC3 (by decide) (by decide)⟩

/-- Witness for C5 at the spec's truncated example. -/
theorem c5_unbalanced_iff_w :
    findStart exC5 tName = some 0 ∧
      (extractTemplate exC5 tName = ExtractResult.unbalanced ↔
        ∃ mid b, scanStates exC5 0 0 = mid ++ [(exC5.length, b)] ∧ 0 < b) :=
  ⟨by decide, c5_unbalanced_iff.1 exC5 tName 0 (by decide)⟩

lemma hasSub_nil (s : List Char) : hasSub ([] : List Char) s = true := by
  cases s with
  | nil => decide
  | cons c rest => simp [hasSub, startsWithL]

lemma filterAssets_nil (assets : List AssetDescriptor) (keyword : List Char) :
    filterAssets assets keyword = [] := by
  unfold filterAssets exclusionFilter
  rw [List.filter_eq_nil_iff]
  intro a ha
  simp [hasSub_nil]

/-- C2 (code bug): the exclusion test at process_images.py line 139 checks
that the name does not contain the empty string, which is contained in every
string, so the composed filter keeps NO asset whatsoever — in particular, on
the claim's two-element example it returns the empty list instead of the
first asset. -/
theorem c2_filter_keeps_nothing :
    (∀ assets keyword, filterAssets assets keyword = []) ∧
    filterAssets [⟨nameA1, urlX⟩, ⟨nameA2, urlX⟩] kwC = [] :=
  ⟨filterAssets_nil, filterAssets_nil _ _⟩

/-- Claim C8's failing input: the keyword-plus-png pattern occurs twice in
the asset name, once in the middle and once as the final suffix. -/
def nameDouble : List Char :=
  ['A'] ++ kwC ++ pngSuffix ++ ['B'] ++ kwC ++ pngSuffix

/-- C8 counterexample: str.replace removes EVERY occurrence of
keyword + png, not only the final suffix, so text elsewhere in the name is
affected: on nameDouble the derived title is the namespace token followed by
AB, not the namespace token followed by the name with only its suffix
stripped. -/
theorem c8_cex :
    pageTitle nameDouble kwC = nsTok ++ ['A', 'B'] ∧
    nsTok ++ ['A', 'B'] ≠ nsTok ++ (['A'] ++ kwC ++ pngSuffix ++ ['B']) :=
  ⟨by decide, by decide⟩

lemma replaceAllAux_del :
    ∀ pre pat : List Char, ∀ fuel, (pre ++ pat).length ≤ fuel → pat ≠ [] →
      (∀ j < pre.length, startsWithL pat ((pre ++ pat).drop j) = false) →
      replaceAllAux pat [] fuel (pre ++ pat) = pre := by
  intro pre
  induction pre with
  | nil =>
    intro pat fuel hf hne hocc
    cases pat with
    | nil => exact absurd rfl hne
    | cons p pt =>
      cases fuel with
      | zero => simp at hf
      | succ f =>
        have hs : startsWithL (p :: pt) (p :: pt) = true := by
          unfold startsWithL
          rw [List.take_length]
          exact beq_self_eq_true _
        show replaceAllAux (p :: pt) [] (f + 1) ([] ++ (p :: pt)) = []
        simp only [List.nil_append, replaceAllAux]
        rw [if_pos ⟨by simp, hs⟩, List.drop_length]
        simp [replaceAllAux]
  | cons c pre' ih =>
    intro pat fuel hf hne hocc
    cases fuel with
    | zero => simp at hf
    | succ f =>
      have h0 : startsWithL pat (c :: (pre' ++ pat)) = false := by
        have := hocc 0 (by simp)
        simpa using this
      show replaceAllAux pat [] (f + 1) (c :: (pre' ++ pat)) = c :: pre'
      simp only [replaceAllAux]
      rw [if_neg (by intro hco; rw [h0] at hco; exact absurd hco.2 (by simp))]
      congr 1
      refine ih pat f (by simp at hf ⊢; omega) hne ?_
      intro j hj
      have := hocc (j + 1) (by simp; omega)
      simpa using this

/-- C8 amended: the code removes every occurrence of keyword + png from the
asset name (leftmost first, non-overlapping) before prefixing the namespace
token; when the pattern occurs only as the final suffix of the name, this
coincides with stripping that suffix. -/
theorem c8_title_amended :
    ∀ pre keyword : List Char,
      (∀ j < pre.length,
        startsWithL (keyword ++ pngSuffix)
          ((pre ++ (keyword ++ pngSuffix)).drop j) = false) →
      pageTitle (pre ++ (keyword ++ pngSuffix)) keyword = nsTok ++ pre := by
  intro pre keyword hocc
  unfold pageTitle replaceAll
  congr 1
  exact replaceAllAux_del pre (keyword ++ pngSuffix) _ (le_refl _)
    (by simp [pngSuffix]) hocc

/-- Witness for C8 amended: a name in which the pattern occurs only as the
final suffix. -/
theorem c8_title_amended_w :
    (∀ j < (['A', '_'] : List Char).length,
      startsWithL (kwC ++ pngSuffix)
        (((['A', '_'] : List Char) ++ (kwC ++ pngSuffix)).drop j) = false) ∧
    pageTitle ((['A', '_'] : List Char) ++ (kwC ++ pngSuffix)) kwC =
      nsTok ++ ['A', '_'] :=
  ⟨by decide, c8_title_amended ['A', '_'] kwC (by decide)⟩

/-- C9 counterexample: the one-character input consisting of a period is
non-empty, yet sanitize maps it to the empty string (the period-removal step
deletes the whole input and no guard exists). -/
theorem c9_cex : sanitize ['.'] = [] ∧ (['.'] : List Char) ≠ [] :=
  ⟨by decide, by decide⟩

lemma replaceAllAux_dot :
    ∀ fuel, ∀ s : List Char, s.length ≤ fuel →
      replaceAllAux ['.'] [] fuel s = s.filter (fun c => !(c == '.')) := by
  intro fuel
  induction fuel with
  | zero =>
    intro s hf
    have hs : s = [] := List.length_eq_zero.mp (by omega)
    subst hs
    simp [replaceAllAux]
  | succ f ih =>
    intro s hf
    cases s with
    | nil => simp [replaceAllAux]
    | cons c rest =>
      simp only [replaceAllAux]
      by_cases hc : c = '.'
      · subst hc
        have hs : startsWithL ['.'] ('.' :: rest) = true := by
          unfold startsWithL
          simp
        rw [if_pos ⟨by simp, hs⟩]
        have hdrop : ('.' :: rest).drop (['.'] : List Char).length = rest := by
          simp
        rw [hdrop, ih rest (by simp at hf; omega)]
        simp [List.filter]
      · have hs : startsWithL ['.'] (c :: rest) = false := by
          unfold startsWithL
          simp [hc]
        rw [if_neg (by intro hco; rw [hs] at hco; exact absurd hco.2 (by simp))]
        rw [ih rest (by simp at hf; omega)]
        have hcb : (!(c == '.')) = true := by simp [hc]
        simp [List.filter_cons, hcb]

lemma sanitize_eq_filter (s : List Char) :
    sanitize s =
      collapseRuns ((s.map Char.toLower).filter (fun c => !(c == '.'))) := by
  unfold sanitize replaceAll
  rw [replaceAllAux_dot _ _ (le_refl _)]

lemma toLower_ne_dot (c : Char) (h : c ≠ '.') : Char.toLower c ≠ '.' := by
  have key : ∀ m : Nat, m < 91 → 65 ≤ m → Char.ofNat (m + 32) ≠ '.' := by decide
  show (if c.toNat ≥ 65 ∧ c.toNat ≤ 90 then Char.ofNat (c.toNat + 32) else c) ≠ '.'
  split
  · rename_i hcond
    exact key c.toNat (by omega) (by omega)
  · exact h

lemma collapseRuns_ne_nil (l : List Char) (h : l ≠ []) : collapseRuns l ≠ [] := by
  cases l with
  | nil => exact absurd rfl h
  | cons c rest =>
    unfold collapseRuns
    simp only [List.length_cons, collapseRunsAux]
    split <;> simp

/-- C9 amended: sanitize of any input containing at least one character other
than a period is non-empty (an input consisting solely of periods — the
counterexample — is the only way a non-empty input collapses to the empty
string). -/
theorem c9_sanitize_amended :
    ∀ s : List Char, ∀ c ∈ s, c ≠ '.' → sanitize s ≠ [] := by
  intro s c hmem hne
  rw [sanitize_eq_filter]
  apply collapseRuns_ne_nil
  apply List.ne_nil_of_mem (a := Char.toLower c)
  rw [List.mem_filter]
  refine ⟨List.mem_map_of_mem _ hmem, ?_⟩
  simp only [Bool.not_eq_true', beq_eq_false_iff_ne]
  exact toLower_ne_dot c hne

/-- Witness for C9 amended at a one-letter input. -/
theorem c9_sanitize_amended_w :
    'a' ∈ (['a'] : List Char) ∧ 'a' ≠ '.' ∧ sanitize ['a'] ≠ [] :=
  ⟨by decide, by decide, c9_sanitize_amended ['a'] 'a' (by decide) (by decide)⟩

/-- C7 counterexample: for the wikitext wC7 the page has wikitext, template
extraction succeeds, and field extraction returns a non-null value (the empty
string, the strip of a whitespace-only match), yet the resolver falls back to
the original asset name instead of producing sanitize(value) + png as the
claim's otherwise-branch requires. -/
theorem c7_cex :
    (some wC7 ≠ (none : Option (List Char))) ∧ wC7 ≠ [] ∧
    extractTemplate wC7 tmplName = ExtractResult.ok wC7 ∧
    extractField wC7 fldName = some [] ∧
    (some ([] : List Char) ≠ (none : Option (List Char))) ∧
    resolveName (fun _ => some wC7) nameA3 kwC fldName = nameA3 ∧
    nameA3 ≠ sanitize [] ++ pngSuffix :=
  ⟨by decide, by decide, by decide, by decide, by decide, by decide, by decide⟩

/-- C7 amended: the fallback to the untouched asset name is taken when the
lookup yields no page, the wikitext is empty, template extraction fails,
the field is absent, OR the field's stripped value is the empty string
(Python falsiness at process_images.py line 157); only a non-null, non-empty
value produces sanitize(value) + png. -/
theorem c7_fallback_amended :
    ∀ (lookup : List Char → Option (List Char)) (a kw f : List Char),
      (lookup (pageTitle a kw) = none → resolveName lookup a kw f = a) ∧
      (∀ w, lookup (pageTitle a kw) = some w → w = [] →
        resolveName lookup a kw f = a) ∧
      (∀ w, lookup (pageTitle a kw) = some w → w ≠ [] →
        (∀ t, extractTemplate w tmplName ≠ ExtractResult.ok t) →
        resolveName lookup a kw f = a) ∧
      (∀ w t, lookup (pageTitle a kw) = some w → w ≠ [] →
        extractTemplate w tmplName = ExtractResult.ok t →
        extractField t f = none → resolveName lookup a kw f = a) ∧
      (∀ w t, lookup (pageTitle a kw) = some w → w ≠ [] →
        extractTemplate w tmplName = ExtractResult.ok t →
        extractField t f = some [] → resolveName lookup a kw f = a) ∧
      (∀ w t v, lookup (pageTitle a kw) = some w → w ≠ [] →
        extractTemplate w tmplName = ExtractResult.ok t →
        extractField t f = some v → v ≠ [] →
        resolveName lookup a kw f = sanitize v ++ pngSuffix) := by
  intro lookup a kw f
  refine ⟨?_, ?_, ?_, ?_, ?_, ?_⟩
  · intro h
    simp [resolveName, getTemplateField, h]
  · intro w hw hwe
    subst hwe
    simp [resolveName, getTemplateField, hw]
  · intro w hw hwne hET
    cases hcase : extractTemplate w tmplName with
    | ok t => exact absurd hcase (hET t)
    | notFound => simp [resolveName, getTemplateField, hw, hwne, hcase]
    | unbalanced => simp [resolveName, getTemplateField, hw, hwne, hcase]
  · intro w t hw hwne hET hEF
    simp [resolveName, getTemplateField, hw, hwne, hET, hEF]
  · intro w t hw hwne hET hEF
    simp [resolveName, getTemplateField, hw, hwne, hET, hEF]
  · intro w t v hw hwne hET hEF hvne
    simp [resolveName, getTemplateField, hw, hwne, hET, hEF, hvne]

/-- Witness for C7 amended at the spec's end-to-end example: the field value
John Doe yields the output john_doe.png. -/
theorem c7_fallback_amended_w :
    ((fun _ : List Char => some wJohn) (pageTitle nameA3 kwC) = some wJohn) ∧
    wJohn ≠ [] ∧
    extractTemplate wJohn tmplName = ExtractResult.ok wJohn ∧
    extractField wJohn fldName =
      some ['J', 'o', 'h', 'n', ' ', 'D', 'o', 'e'] ∧
    (['J', 'o', 'h', 'n', ' ', 'D', 'o', 'e'] : List Char) ≠ [] ∧
    resolveName (fun _ => some wJohn) nameA3 kwC fldName =
      sanitize ['J', 'o', 'h', 'n', ' ', 'D', 'o', 'e'] ++ pngSuffix :=
  ⟨by decide, by decide, by decide, by decide, by decide,
    (c7_fallback_amended (fun _ => some wJohn) nameA3 kwC fldName).2.2.2.2.2
      wJohn wJohn ['J', 'o', 'h', 'n', ' ', 'D', 'o', 'e'] (by decide)
      (by decide) (by decide) (by decide) (by decide)⟩

lemma pyStrip_allWs (v : List Char) (h : ∀ c ∈ v, isPyWs c = true) :
    pyStrip v = [] := by
  have hd : ∀ u : List Char, (∀ c ∈ u, isPyWs c = true) →
      u.dropWhile isPyWs = [] := by
    intro u
    induction u with
    | nil => intro _; rfl
    | cons c rest ih =>
      intro hu
      rw [List.dropWhile_cons, if_pos (hu c (by simp))]
      exact ih (fun x hx => hu x (by simp [hx]))
  unfold pyStrip
  rw [hd v h]
  rfl

/-- C10: a matched field value consisting only of whitespace strips to the
empty string, and the resolver treats that exactly like a missing field —
it falls back to the original asset name and sanitize is never applied. -/
theorem c10_blank_field_fallback :
    (∀ t f v, fieldSearch f t = some v → (∀ c ∈ v, isPyWs c = true) →
      extractField t f = some []) ∧
    (∀ (lookup : List Char → Option (List Char)) (a kw f : List Char),
      getTemplateField (lookup (pageTitle a kw)) f = some [] →
      resolveName lookup a kw f = a) := by
  constructor
  · intro t f v hfs hws
    unfold extractField
    rw [hfs]
    simp [pyStrip_allWs v hws]
  · intro lookup a kw f h
    unfold resolveName
    rw [h]
    simp

/-- Witness for C10 at the whitespace-valued example page. -/
theorem c10_blank_field_fallback_w :
    fieldSearch fldName wC7 = some [' '] ∧
    (∀ c ∈ ([' '] : List Char), isPyWs c = true) ∧
    extractField wC7 fldName = some [] ∧
    getTemplateField ((fun _ : List Char => some wC7) (pageTitle nameA3 kwC))
      fldName = some [] ∧
    resolveName (fun _ => some wC7) nameA3 kwC fldName = nameA3 :=
  ⟨by decide, by decide,
    c10_blank_field_fallback.1 wC7 fldName [' '] (by decide) (by decide),
    by decide,
    c10_blank_field_fallback.2 (fun _ => some wC7) nameA3 kwC fldName (by decide)⟩

lemma startsWithL_iff {pat s : List Char} :
    startsWithL pat s = true ↔ ∃ r, s = pat ++ r := by
  unfold startsWithL
  rw [beq_iff_eq]
  constructor
  · intro h
    refine ⟨s.drop pat.length, ?_⟩
    conv_lhs => rw [← List.take_append_drop pat.length s]
    rw [h]
  · rintro ⟨r, rfl⟩
    exact List.take_left pat r

lemma greedyWs_none (cont : List Char → Option (List Char)) :
    ∀ s, greedyWs cont s = none →
      ∀ a b, s = a ++ b → AllWs a → cont b = none := by
  intro s
  induction s with
  | nil =>
    intro h a b hab hws
    obtain ⟨ha, hb⟩ := List.append_eq_nil.mp hab.symm
    subst ha
    subst hb
    simpa [greedyWs] using h
  | cons c rest ih =>
    intro h a b hab hws
    by_cases hc : isPyWs c = true
    · have hnone : greedyWs cont rest = none ∧ cont (c :: rest) = none := by
        simp only [greedyWs] at h
        rw [if_pos hc] at h
        cases hg : greedyWs cont rest with
        | some v => rw [hg] at h; exact absurd h (by simp)
        | none => rw [hg] at h; exact ⟨rfl, h⟩
      cases a with
      | nil =>
        simp at hab
        subst hab
        exact hnone.2
      | cons a0 a' =>
        rw [List.cons_append] at hab
        injection hab with h1 h2
        subst h1
        exact ih hnone.1 a' b h2 (fun x hx => hws x (by simp [hx]))
    · simp only [greedyWs] at h
      rw [if_neg hc] at h
      cases a with
      | nil =>
        simp at hab
        subst hab
        exact h
      | cons a0 a' =>
        rw [List.cons_append] at hab
        injection hab with h1 h2
        subst h1
        exact absurd (hws c (by simp)) hc

lemma greedyWs_some (cont : List Char → Option (List Char)) :
    ∀ s v, greedyWs cont s = some v →
      ∃ a b, s = a ++ b ∧ AllWs a ∧ cont b = some v := by
  intro s
  induction s with
  | nil =>
    intro v h
    exact ⟨[], [], rfl, by intro x hx; simp at hx, by simpa [greedyWs] using h⟩
  | cons c rest ih =>
    intro v h
    by_cases hc : isPyWs c = true
    · simp only [greedyWs] at h
      rw [if_pos hc] at h
      cases hg : greedyWs cont rest with
      | some v2 =>
        rw [hg] at h
        injection h with h1
        obtain ⟨a, b, hab, hws, hcn⟩ := ih v2 hg
        refine ⟨c :: a, b, by rw [List.cons_append, hab], ?_,
          by rw [← h1]; exact hcn⟩
        intro x hx
        rcases List.mem_cons.mp hx with h2 | h2
        · subst h2; exact hc
        · exact hws x h2
      | none =>
        rw [hg] at h
        exact ⟨[], c :: rest, rfl, by intro x hx; simp at hx, h⟩
    · simp only [greedyWs] at h
      rw [if_neg hc] at h
      exact ⟨[], c :: rest, rfl, by intro x hx; simp at hx, h⟩

lemma mcp_some {s v : List Char} (h : matchClassPlus s = some v) :
    v = s.takeWhile inFieldClass ∧ v ≠ [] := by
  unfold matchClassPlus at h
  split at h
  · exact absurd h (by simp)
  · rename_i hne
    injection h with h1
    refine ⟨h1.symm, ?_⟩
    rw [← h1]
    exact hne

lemma matchAfterDelim_some {name s v : List Char}
    (h : matchAfterDelim name s = some v) :
    TailMatch name s ∧ v ≠ [] ∧ AllClass v := by
  unfold matchAfterDelim at h
  obtain ⟨a, b, rfl, hwa, hcn⟩ := greedyWs_some _ _ _ h
  unfold contName at hcn
  split at hcn
  · rename_i hsw
    obtain ⟨rest, rfl⟩ := startsWithL_iff.mp hsw
    rw [List.drop_left] at hcn
    obtain ⟨b2, b3, rfl, hwb, hce⟩ := greedyWs_some _ _ _ hcn
    cases b3 with
    | nil => exact absurd hce (by simp [contEq])
    | cons c3 s3 =>
      have hce2 : (if c3 = '=' then greedyWs matchClassPlus s3 else none) =
          some v := hce
      split at hce2
      · rename_i hc3
        subst hc3
        obtain ⟨c4, b5, rfl, hwc, hmc⟩ := greedyWs_some _ _ _ hce2
        obtain ⟨hv, hvne⟩ := mcp_some hmc
        have hb5 : b5 = v ++ b5.dropWhile inFieldClass := by
          rw [hv]
          exact (List.takeWhile_append_dropWhile _ _).symm
        have hvc : AllClass v := by
          rw [hv]
          intro x hx
          exact List.mem_takeWhile_imp hx
        refine ⟨⟨a, b2, c4, v, b5.dropWhile inFieldClass, ?_, hwa, hwb, hwc,
          hvne, hvc⟩, hvne, hvc⟩
        conv_lhs => rw [hb5]
        simp [List.append_assoc]
      · exact absurd hce2 (by simp)
  · exact absurd hcn (by simp)

lemma matchAfterDelim_of_TailMatch {name s : List Char} (h : TailMatch name s) :
    matchAfterDelim name s ≠ none := by
  obtain ⟨a, b, c, v, r, rfl, hwa, hwb, hwc, hvne, hvc⟩ := h
  intro hnone
  unfold matchAfterDelim at hnone
  have h1 := greedyWs_none _ _ hnone a (name ++ (b ++ '=' :: (c ++ v ++ r)))
    (by simp [List.append_assoc]) hwa
  unfold contName at h1
  rw [if_pos (startsWithL_iff.mpr ⟨b ++ '=' :: (c ++ v ++ r), rfl⟩),
    List.drop_left] at h1
  have h2 := greedyWs_none _ _ h1 b ('=' :: (c ++ v ++ r)) rfl hwb
  have h2b : greedyWs matchClassPlus (c ++ v ++ r) = none := by
    have : contEq ('=' :: (c ++ v ++ r)) =
        greedyWs matchClassPlus (c ++ v ++ r) := by simp [contEq]
    rw [this] at h2
    exact h2
  have h3 := greedyWs_none _ _ h2b c (v ++ r) (by simp [List.append_assoc]) hwc
  unfold matchClassPlus at h3
  split at h3
  · rename_i htw
    cases v with
    | nil => exact hvne rfl
    | cons v0 v' =>
      rw [List.cons_append, List.takeWhile_cons, if_pos (hvc v0 (by simp))] at htw
      exact absurd htw (by simp)
  · exact absurd h3 (by simp)

lemma attempt1_some {name s v : List Char} (h : attempt1 name s = some v) :
    SuffMatch name s ∧ v ≠ [] ∧ AllClass v := by
  cases s with
  | nil => exact absurd h (by simp [attempt1])
  | cons c rest =>
    by_cases hbar : c = '|'
    · subst hbar
      rw [show attempt1 name ('|' :: rest) = matchAfterDelim name rest from rfl]
        at h
      obtain ⟨htm, hvne, hvc⟩ := matchAfterDelim_some h
      exact ⟨Or.inl ⟨rest, rfl, htm⟩, hvne, hvc⟩
    · cases rest with
      | nil => exact absurd h (by simp [attempt1, hbar])
      | cons d rest2 =>
        by_cases hlb : c = lb ∧ d = lb
        · obtain ⟨hc, hd⟩ := hlb
          subst hc
          subst hd
          rw [show attempt1 name (lb :: lb :: rest2) =
            matchAfterDelim name rest2 from rfl] at h
          obtain ⟨htm, hvne, hvc⟩ := matchAfterDelim_some h
          exact ⟨Or.inr ⟨rest2, rfl, htm⟩, hvne, hvc⟩
        · exact absurd h (by simp [attempt1, hbar, hlb])

lemma attempt1_none {name s : List Char} (h : attempt1 name s = none) :
    ¬ SuffMatch name s := by
  rintro (⟨s1, rfl, htm⟩ | ⟨s1, rfl, htm⟩)
  · rw [show attempt1 name ('|' :: s1) = matchAfterDelim name s1 from rfl] at h
    exact matchAfterDelim_of_TailMatch htm h
  · rw [show attempt1 name (lb :: lb :: s1) = matchAfterDelim name s1 from rfl]
      at h
    exact matchAfterDelim_of_TailMatch htm h

lemma SuffMatch_nil {name : List Char} : ¬ SuffMatch name [] := by
  rintro (⟨s1, h, _⟩ | ⟨s1, h, _⟩) <;> exact absurd h (by simp)

lemma fieldSearch_none_iff {name : List Char} :
    ∀ t, fieldSearch name t = none ↔ ∀ p, ¬ SuffMatch name (t.drop p) := by
  intro t
  induction t with
  | nil =>
    constructor
    · intro _ p
      rw [List.drop_nil]
      exact SuffMatch_nil
    · intro _
      rfl
  | cons c rest ih =>
    simp only [fieldSearch]
    cases hA : attempt1 name (c :: rest) with
    | some v =>
      constructor
      · intro h
        exact absurd h (by simp)
      · intro hall
        exact absurd ((attempt1_some hA).1) (by simpa using hall 0)
    | none =>
      constructor
      · intro h p
        cases p with
        | zero => simpa using attempt1_none hA
        | succ p' =>
          rw [List.drop_succ_cons]
          exact (ih.mp h) p'
      · intro hall
        apply ih.mpr
        intro p
        simpa using hall (p + 1)

lemma fieldSearch_some_earliest {name : List Char} :
    ∀ t v, fieldSearch name t = some v →
      ∃ p, attempt1 name (t.drop p) = some v ∧
        ∀ q, q < p → ¬ SuffMatch name (t.drop q) := by
  intro t
  induction t with
  | nil =>
    intro v h
    exact absurd h (by simp [fieldSearch])
  | cons c rest ih =>
    intro v h
    simp only [fieldSearch] at h
    cases hA : attempt1 name (c :: rest) with
    | some v2 =>
      rw [hA] at h
      injection h with h1
      refine ⟨0, ?_, ?_⟩
      · rw [List.drop_zero, hA, h1]
      · intro q hq
        omega
    | none =>
      rw [hA] at h
      obtain ⟨p, hp, hq⟩ := ih v h
      refine ⟨p + 1, by simpa using hp, ?_⟩
      intro q hqlt
      cases q with
      | zero => simpa using attempt1_none hA
      | succ q' =>
        rw [List.drop_succ_cons]
        exact hq q' (by omega)

/-- C6: field extraction returns the trimmed value of the earliest position
at which the delimiter-name-equals-value pattern matches (first conjunct
shows the spec's example; the second that every raw matched value is a
nonempty run of characters free of bar, newline, carriage return and closing
brace; the third that the search returns null exactly when no position of
the template text carries a match; the fourth that a returned value is the
strip of the raw group matched at the earliest matching position). -/
theorem c6_field_extraction :
    extractField exC6 ['n', 'a', 'm', 'e'] = some valC6 ∧
    (∀ t f v, fieldSearch f t = some v → v ≠ [] ∧ AllClass v) ∧
    (∀ t f, extractField t f = none ↔ ∀ p, ¬ SuffMatch f (t.drop p)) ∧
    (∀ t f v, extractField t f = some v →
      ∃ p raw, attempt1 f (t.drop p) = some raw ∧ v = pyStrip raw ∧
        ∀ q, q < p → ¬ SuffMatch f (t.drop q)) := by
  refine ⟨by decide, ?_, ?_, ?_⟩
  · intro t f v h
    obtain ⟨p, hp, _⟩ := fieldSearch_some_earliest t v h
    obtain ⟨_, hvne, hvc⟩ := attempt1_some hp
    exact ⟨hvne, hvc⟩
  · intro t f
    constructor
    · intro h
      unfold extractField at h
      rw [Option.map_eq_none'] at h
      exact (fieldSearch_none_iff t).mp h
    · intro hall
      unfold extractField
      rw [(fieldSearch_none_iff t).mpr hall]
      rfl
  · intro t f v h
    unfold extractField at h
    cases hfs : fieldSearch f t with
    | none =>
      rw [hfs] at h
      exact absurd h (by simp)
    | some raw =>
      rw [hfs] at h
      injection h with h1
      obtain ⟨p, hp, hq⟩ := fieldSearch_some_earliest t raw hfs
      exact ⟨p, raw, hp, h1.symm, hq⟩

/-- Witness for C6 at the spec's example: the raw matched value is the run up
to the bar (with its trailing space), nonempty and free of terminator
characters. -/
theorem c6_field_extraction_w :
    fieldSearch ['n', 'a', 'm', 'e'] exC6 = some (valC6 ++ [' ']) ∧
    ((valC6 ++ [' '] : List Char) ≠ [] ∧ AllClass (valC6 ++ [' '])) :=
  ⟨by decide,
    c6_field_extraction.2.1 exC6 ['n', 'a', 'm', 'e'] (valC6 ++ [' '])
      (by decide)⟩
